import Mathlib

/-!
Verification of the unit-cell basis / supercell / symmetry-mate placement
logic of the pymolrc scripts (`scripts/supercell.py`, `scripts/cell_axes.py`).

The embedding follows `supercell.py` line by line:
* `cellbasis` — the 4x4 basis matrix built from cell angles and edges
  (`cellbasis`, lines 10-23).  The numpy computation `basis * edges`
  broadcasts the (appended) edge list over the columns, so the embedding
  multiplies column `j` of the pre-scaling matrix by `edgesExt edges j`.
* `cellbasisList` — the same function with the `edges.append(1.0)` list
  mutation made explicit as state passing (it returns the edges list as it
  is after the call).
* `cellbasisF` — the same computation over `FloatV = Option ℝ`, where
  `none` models a non-finite IEEE value (inf or NaN): numpy division by
  zero and the square root of a negative number do not raise, they produce
  non-finite values that propagate.
* `enumerateCells` — the triple `for` loop of `supercell` (lines 68-72).
* `cellEdgeEndpoints` — the wireframe vertex list of one replica
  (lines 81-99).
* `adjustedOperator` / `symMateTransform` / `symexpcell` — the per-operator
  placement computation of `symexpcell` (lines 139-165): fractional center,
  floor-based shift, translation adjustment, conjugation by the basis.
* `supercell` — the replica list produced by `supercell` with
  `withmates=1` (wireframe plus one `symexpcell` call per replica).
-/

noncomputable section

open Real Matrix

/-- `np.deg2rad`: degrees to radians. -/
def deg2rad (x : ℝ) : ℝ := x * (Real.pi / 180)

/-- `basis[0][1] = np.cos(rad[2])`. -/
def cosGamma (angles : Fin 3 → ℝ) : ℝ := Real.cos (deg2rad (angles 2))

/-- `basis[1][1] = np.sin(rad[2])`. -/
def sinGamma (angles : Fin 3 → ℝ) : ℝ := Real.sin (deg2rad (angles 2))

/-- `basis[0][2] = np.cos(rad[1])`. -/
def cosBeta (angles : Fin 3 → ℝ) : ℝ := Real.cos (deg2rad (angles 1))

/-- `basis[1][2] = (np.cos(rad[0]) - basis[0][1] * basis[0][2]) / basis[1][1]`. -/
def basis12 (angles : Fin 3 → ℝ) : ℝ :=
  (Real.cos (deg2rad (angles 0)) - cosGamma angles * cosBeta angles) / sinGamma angles

/-- The radicand of step 3: `1 - basis[0][2] ** 2 - basis[1][2] ** 2`. -/
def radicand (angles : Fin 3 → ℝ) : ℝ :=
  1 - cosBeta angles ^ 2 - basis12 angles ^ 2

/-- `np.identity(4)` with the five entries assigned by `cellbasis`
(before the edge scaling). -/
def cellbasis0 (angles : Fin 3 → ℝ) : Matrix (Fin 4) (Fin 4) ℝ :=
  !![1, cosGamma angles, cosBeta angles, 0;
     0, sinGamma angles, basis12 angles, 0;
     0, 0, Real.sqrt (radicand angles), 0;
     0, 0, 0, 1]

/-- The edge list after `edges.append(1.0)`, as the length-4 vector that
numpy broadcasts over the columns. -/
def edgesExt (edges : Fin 3 → ℝ) : Fin 4 → ℝ := ![edges 0, edges 1, edges 2, 1]

/-- `cellbasis(angles, edges)`: the returned matrix `basis * edges`
(elementwise broadcast = column `j` scaled by `edgesExt edges j`). -/
def cellbasis (angles edges : Fin 3 → ℝ) : Matrix (Fin 4) (Fin 4) ℝ :=
  Matrix.of fun i j => cellbasis0 angles i j * edgesExt edges j

/-- `cellbasis` with the `edges.append(1.0)` mutation made explicit:
returns the basis matrix together with the edges list as it is after the
call.  The matrix part multiplies entry `(i, j)` by element `j` of the
appended list, exactly as the numpy broadcast does. -/
def cellbasisList (angles : Fin 3 → ℝ) (edges : List ℝ) :
    Matrix (Fin 4) (Fin 4) ℝ × List ℝ :=
  let edges' := edges ++ [1.0]
  (Matrix.of fun i j => cellbasis0 angles i j * edges'.getD j 0, edges')

/-- The `ts` list of `supercell`:
`for i in range(a): for j in range(b): for k in range(c): ts.append([i,j,k])`. -/
def enumerateCells (na nb nc : ℕ) : List (ℕ × ℕ × ℕ) :=
  (List.range na).flatMap fun i =>
    (List.range nb).flatMap fun j =>
      (List.range nc).map fun k => (i, j, k)

/-- The Euclidean norm of column `j` of the upper-left 3x3 block. -/
def colNorm (m : Matrix (Fin 4) (Fin 4) ℝ) (j : Fin 3) : ℝ :=
  Real.sqrt (∑ i : Fin 3, m i.castSucc j.castSucc ^ 2)

lemma deg2rad_ninety : deg2rad 90 = Real.pi / 2 := by
  unfold deg2rad; ring

lemma cosGamma_ninety (a b : ℝ) : cosGamma ![a, b, 90] = 0 := by
  simp [cosGamma, deg2rad_ninety]

lemma sinGamma_ninety (a b : ℝ) : sinGamma ![a, b, 90] = 1 := by
  simp [sinGamma, deg2rad_ninety]

lemma cosBeta_ninety (a c : ℝ) : cosBeta ![a, 90, c] = 0 := by
  simp [cosBeta, deg2rad_ninety]

lemma basis12_allninety : basis12 ![90, 90, 90] = 0 := by
  simp [basis12, cosGamma_ninety, cosBeta_ninety, deg2rad_ninety]

lemma radicand_allninety : radicand ![90, 90, 90] = 1 := by
  simp [radicand, cosBeta_ninety, basis12_allninety]

/-- At right angles the pre-scaling basis is the identity. -/
lemma cellbasis0_allninety : cellbasis0 ![90, 90, 90] = 1 := by
  unfold cellbasis0
  rw [cosGamma_ninety, sinGamma_ninety, cosBeta_ninety, basis12_allninety,
    radicand_allninety, Real.sqrt_one]
  ext i j
  fin_cases i <;> fin_cases j <;>
    simp [Matrix.one_apply, Matrix.vecHead, Matrix.vecTail]

/-- At right angles `cellbasis` is the diagonal matrix of the edges. -/
lemma cellbasis_allninety (edges : Fin 3 → ℝ) :
    cellbasis ![90, 90, 90] edges =
      Matrix.diagonal ![edges 0, edges 1, edges 2, 1] := by
  unfold cellbasis
  rw [cellbasis0_allninety]
  ext i j
  fin_cases i <;> fin_cases j <;>
    simp [Matrix.one_apply, Matrix.diagonal, edgesExt]

/-- C4: for a = b = c = 10 and α = β = γ = 90°, `cellbasis` returns the
diagonal matrix diag(10, 10, 10, 1) (exactly, over the reals). -/
theorem cellbasis_cubic_diag :
    cellbasis ![90, 90, 90] ![10, 10, 10] =
      Matrix.diagonal ![10, 10, 10, 1] := by
  rw [cellbasis_allninety]
  norm_num

/-- C5: `enumerateCells` is exactly the Cartesian product
{0..na−1} × {0..nb−1} × {0..nc−1} in row-major order (a outermost,
c innermost), and in particular `enumerateCells 2 1 1` is
[(0,0,0), (1,0,0)]. -/
theorem enumerateCells_product :
    (∀ na nb nc : ℕ,
      enumerateCells na nb nc =
        List.range na ×ˢ (List.range nb ×ˢ List.range nc)) ∧
    enumerateCells 2 1 1 = [(0, 0, 0), (1, 0, 0)] := by
  constructor
  · intro na nb nc
    simp [enumerateCells, List.instSProd, List.product, List.map_flatMap,
      List.flatMap_map, Function.comp_def]
  · rfl

/-- C2 (counterexample): `cellbasis` does NOT leave its `edges` argument
unchanged: `edges.append(1.0)` mutates the list, so after the call the
edges sequence `[10, 10, 10]` has become `[10, 10, 10, 1]`. -/
theorem cellbasis_mutates_edges :
    (cellbasisList ![90, 90, 90] [10, 10, 10]).2 ≠ [10, 10, 10] := by
  intro h
  have hlen := congrArg List.length h
  simp [cellbasisList] at hlen

lemma finval0 : ((0 : Fin 4) : ℕ) = 0 := rfl

lemma finval1 : ((1 : Fin 4) : ℕ) = 1 := rfl

lemma finval2 : ((2 : Fin 4) : ℕ) = 2 := rfl

lemma finval3 : ((3 : Fin 4) : ℕ) = 3 := rfl

lemma castSucc0 : Fin.castSucc (0 : Fin 3) = (0 : Fin 4) := rfl

lemma castSucc1 : Fin.castSucc (1 : Fin 3) = (1 : Fin 4) := rfl

lemma castSucc2 : Fin.castSucc (2 : Fin 3) = (2 : Fin 4) := rfl

/-- C2 (amended): the only side effect of `cellbasis` is that it appends
`1.0` to the `edges` sequence; the returned matrix is the broadcast
product of the pre-scaling basis with that appended list (for a length-3
edges list this is exactly `cellbasis`). -/
theorem cellbasis_effect_on_edges (angles edges : Fin 3 → ℝ) :
    (cellbasisList angles [edges 0, edges 1, edges 2]).2 =
      [edges 0, edges 1, edges 2, 1] ∧
    (cellbasisList angles [edges 0, edges 1, edges 2]).1 =
      cellbasis angles edges := by
  refine ⟨by norm_num [cellbasisList], ?_⟩
  ext i j
  fin_cases j <;>
    norm_num [cellbasisList, cellbasis, edgesExt, finval0, finval1, finval2,
      finval3]

/-- C3: for positive edges, `sin γ ≠ 0` and non-negative step-3 radicand,
the columns of the upper-left 3x3 block of `cellbasis` have Euclidean
norms `a`, `b`, `c`. -/
theorem cellbasis_col_norms (angles edges : Fin 3 → ℝ)
    (hpos : ∀ j : Fin 3, 0 < edges j)
    (hsin : sinGamma angles ≠ 0)
    (hrad : 0 ≤ radicand angles) :
    ∀ j : Fin 3, colNorm (cellbasis angles edges) j = edges j := by
  have h1 : sinGamma angles ^ 2 + cosGamma angles ^ 2 = 1 :=
    Real.sin_sq_add_cos_sq (deg2rad (angles 2))
  have hs : Real.sqrt (radicand angles) ^ 2 = radicand angles := Real.sq_sqrt hrad
  intro j
  fin_cases j
  · show colNorm (cellbasis angles edges) 0 = edges 0
    have hsum : (∑ i : Fin 3, cellbasis angles edges i.castSucc (Fin.castSucc 0) ^ 2)
        = edges 0 ^ 2 := by
      simp [cellbasis, cellbasis0, edgesExt, Fin.sum_univ_three,
        castSucc0, castSucc1, castSucc2, Matrix.vecHead, Matrix.vecTail]
    unfold colNorm
    rw [hsum, Real.sqrt_sq (hpos 0).le]
  · show colNorm (cellbasis angles edges) 1 = edges 1
    have hsum : (∑ i : Fin 3, cellbasis angles edges i.castSucc (Fin.castSucc 1) ^ 2)
        = edges 1 ^ 2 := by
      simp [cellbasis, cellbasis0, edgesExt, Fin.sum_univ_three,
        castSucc0, castSucc1, castSucc2, Matrix.vecHead, Matrix.vecTail]
      linear_combination edges 1 ^ 2 * h1
    unfold colNorm
    rw [hsum, Real.sqrt_sq (hpos 1).le]
  · show colNorm (cellbasis angles edges) 2 = edges 2
    have hsum : (∑ i : Fin 3, cellbasis angles edges i.castSucc (Fin.castSucc 2) ^ 2)
        = edges 2 ^ 2 := by
      simp only [radicand] at hs
      simp [cellbasis, cellbasis0, radicand, edgesExt, Fin.sum_univ_three,
        castSucc0, castSucc1, castSucc2, Matrix.vecHead, Matrix.vecTail]
      linear_combination edges 2 ^ 2 * hs
    unfold colNorm
    rw [hsum, Real.sqrt_sq (hpos 2).le]

/-- A double as numpy produces it here: `none` models a non-finite value
(inf or NaN), `some x` a finite value. -/
abbrev FloatV := Option ℝ

/-- IEEE addition: a non-finite operand gives a non-finite result. -/
def addF : FloatV → FloatV → FloatV
  | some x, some y => some (x + y)
  | _, _ => none

/-- IEEE subtraction: a non-finite operand gives a non-finite result. -/
def subF : FloatV → FloatV → FloatV
  | some x, some y => some (x - y)
  | _, _ => none

/-- IEEE multiplication: a non-finite operand gives a non-finite result
(inf · 0 is NaN, so still non-finite). -/
def mulF : FloatV → FloatV → FloatV
  | some x, some y => some (x * y)
  | _, _ => none

/-- IEEE division: dividing by zero yields inf or NaN (non-finite), it
does not raise. -/
def divF : FloatV → FloatV → FloatV
  | some x, some y => if y = 0 then none else some (x / y)
  | _, _ => none

/-- IEEE `np.sqrt`: the square root of a negative number is NaN
(non-finite), it does not raise. -/
def sqrtF : FloatV → FloatV
  | some x => if x < 0 then none else some (Real.sqrt x)
  | none => none

/-- `cellbasis` over IEEE-like values, following the source line by line:
there is no guard, so a zero `sin γ` or a negative radicand produces
non-finite entries in the returned matrix instead of an error. -/
def cellbasisF (angles edges : Fin 3 → ℝ) : Matrix (Fin 4) (Fin 4) FloatV :=
  let b01 : FloatV := some (cosGamma angles)
  let b11 : FloatV := some (sinGamma angles)
  let b02 : FloatV := some (cosBeta angles)
  let b12 : FloatV :=
    divF (subF (some (Real.cos (deg2rad (angles 0)))) (mulF b01 b02)) b11
  let b22 : FloatV := sqrtF (subF (subF (some 1) (mulF b02 b02)) (mulF b12 b12))
  let m : Matrix (Fin 4) (Fin 4) FloatV :=
    !![some 1, b01, b02, some 0;
       some 0, b11, b12, some 0;
       some 0, some 0, b22, some 0;
       some 0, some 0, some 0, some 1]
  Matrix.of fun i j => mulF (m i j) (some (edgesExt edges j))

lemma deg2rad_zero : deg2rad 0 = 0 := by
  unfold deg2rad; ring

/-- C1 (counterexample): at γ = 0 `cellbasis` does not raise: it returns
a matrix whose (1,2) entry is non-finite (division by zero); at angles
(0°, 0°, 90°) the step-3 radicand is negative and the returned matrix's
(2,2) entry is NaN.  Both degenerate inputs yield a matrix with the
non-finite value propagated, not a domain error. -/
theorem cellbasisF_degenerate_counterexample :
    cellbasisF ![90, 90, 0] ![1, 1, 1] 1 2 = none ∧
    cellbasisF ![0, 0, 90] ![1, 1, 1] 2 2 = none := by
  constructor
  · have hz : sinGamma ![90, 90, 0] = 0 := by
      simp [sinGamma, deg2rad_zero]
    simp [cellbasisF, hz, divF, subF, mulF]
  · have hg : cosGamma ![0, 0, 90] = 0 := by
      simp [cosGamma, deg2rad_ninety]
    have hsg : sinGamma ![0, 0, 90] = 1 := by
      simp [sinGamma, deg2rad_ninety]
    have hb : cosBeta ![0, 0, 90] = 1 := by
      simp [cosBeta, deg2rad_zero]
    simp [cellbasisF, hg, hsg, hb, deg2rad_zero, divF, subF, mulF, sqrtF]

/-- C1 (amended): `cellbasis` has no domain-error guard.  When
`sin γ = 0` the division by zero makes the returned matrix's (1,2) entry
non-finite, and when `sin γ ≠ 0` but the step-3 radicand is negative the
square root makes the (2,2) entry NaN — in both cases the non-finite
value is propagated into the returned matrix, no error is raised. -/
theorem cellbasisF_propagates_nonfinite (angles edges : Fin 3 → ℝ) :
    (sinGamma angles = 0 → cellbasisF angles edges 1 2 = none) ∧
    (sinGamma angles ≠ 0 → radicand angles < 0 →
      cellbasisF angles edges 2 2 = none) := by
  constructor
  · intro hz
    simp [cellbasisF, hz, divF, subF, mulF]
  · intro hnz hneg
    have hb12 :
        divF (some (Real.cos (deg2rad (angles 0)) -
            cosGamma angles * cosBeta angles))
          (some (sinGamma angles)) = some (basis12 angles) := by
      simp [divF, basis12, hnz]
    have hval : (1 : ℝ) - cosBeta angles * cosBeta angles -
        basis12 angles * basis12 angles = radicand angles := by
      unfold radicand; ring
    simp [cellbasisF, subF, mulF, hb12, hval, sqrtF, hneg]

/-- C1 witness: the amended theorem applied at the two degenerate inputs
γ = 0 (division by zero) and (α, β, γ) = (0°, 0°, 90°) (negative
radicand). -/
theorem cellbasisF_propagates_nonfinite_witness :
    cellbasisF ![45, 60, 0] ![2, 3, 4] 1 2 = none ∧
    cellbasisF ![0, 0, 90] ![2, 3, 4] 2 2 = none := by
  constructor
  · exact (cellbasisF_propagates_nonfinite ![45, 60, 0] ![2, 3, 4]).1
      (by simp [sinGamma, deg2rad_zero])
  · refine (cellbasisF_propagates_nonfinite ![0, 0, 90] ![2, 3, 4]).2 ?_ ?_
    · rw [sinGamma_ninety]; norm_num
    · have hg : cosGamma ![0, 0, 90] = 0 := by
        simp [cosGamma, deg2rad_ninety]
      have hb : cosBeta ![0, 0, 90] = 1 := by
        simp [cosBeta, deg2rad_zero]
      rw [radicand, hb, basis12, hg, hb]
      rw [sinGamma_ninety]
      simp [deg2rad_zero]

/-- C3 witness: on the cubic cell (edges 10, all angles 90°) the
hypotheses hold and the first column norm is 10. -/
theorem cellbasis_col_norms_witness :
    colNorm (cellbasis ![90, 90, 90] ![10, 10, 10]) 0 = 10 :=
  cellbasis_col_norms ![90, 90, 90] ![10, 10, 10]
    (by intro j; fin_cases j <;> norm_num)
    (by rw [sinGamma_ninety]; norm_num)
    (by rw [radicand_allninety]; norm_num) 0

/-- The operator adjustment of `symexpcell` (lines 150-155):
`shift = floor(mat * center_cell)`, then the translation column gets
`- shift + extra_shift` on its first three rows. -/
def adjustedOperator (basis : Matrix (Fin 4) (Fin 4) ℝ) (center : Fin 4 → ℝ)
    (mat : Matrix (Fin 4) (Fin 4) ℝ) (offset : Fin 3 → ℝ) :
    Matrix (Fin 4) (Fin 4) ℝ :=
  let centerCell := basis⁻¹ *ᵥ center
  let shift : Fin 4 → ℝ := fun i => ((⌊(mat *ᵥ centerCell) i⌋ : ℤ) : ℝ)
  Matrix.of fun i j =>
    if h : j = 3 ∧ (i : ℕ) < 3 then mat i 3 - shift i + offset ⟨i, h.2⟩
    else mat i j

/-- The model-space transform emitted by `symexpcell` (line 157):
`mat = basis * mat * basis.I`. -/
def symMateTransform (basis : Matrix (Fin 4) (Fin 4) ℝ) (center : Fin 4 → ℝ)
    (mat : Matrix (Fin 4) (Fin 4) ℝ) (offset : Fin 3 → ℝ) :
    Matrix (Fin 4) (Fin 4) ℝ :=
  basis * adjustedOperator basis center mat offset * basis⁻¹

/-- One object created by `symexpcell`: its name (`prefix` plus the
1-based operator index), the transform applied to it, and the color
index passed to `cmd.color` (`i + 1` with `i` the 1-based index). -/
structure PlacedCopy where
  name : String
  transform : Matrix (Fin 4) (Fin 4) ℝ
  colorIndex : ℕ

/-- The operator loop of `symexpcell` (lines 149-165): one placed copy
per symmetry operator, in table order. -/
def symexpcell (pfx : String) (basis : Matrix (Fin 4) (Fin 4) ℝ)
    (center : Fin 4 → ℝ) (offset : Fin 3 → ℝ)
    (matrices : List (Matrix (Fin 4) (Fin 4) ℝ)) : List PlacedCopy :=
  ((List.range matrices.length).zip matrices).map fun p =>
    { name := pfx ++ toString (p.1 + 1)
      transform := symMateTransform basis center p.2 offset
      colorIndex := p.1 + 2 }

/-- C6: with an invertible basis, the single identity operator, offset
(0,0,0), and a center whose fractional coordinates lie in [0,1), the
emitted transform is the 4x4 identity. -/
theorem symMateTransform_identity (basis : Matrix (Fin 4) (Fin 4) ℝ)
    (center : Fin 4 → ℝ) (hb : IsUnit basis.det)
    (hfrac : ∀ i : Fin 3, (basis⁻¹ *ᵥ center) i.castSucc ∈ Set.Ico (0 : ℝ) 1) :
    symMateTransform basis center 1 0 = 1 := by
  have hadj : adjustedOperator basis center 1 0 = 1 := by
    ext i j
    unfold adjustedOperator
    simp only [Matrix.of_apply]
    split
    · rename_i h
      obtain ⟨hj, hi⟩ := h
      subst hj
      have hcast : (Fin.castSucc (⟨(i : ℕ), hi⟩ : Fin 3)) = i := by
        apply Fin.ext; rfl
      have hfl : ⌊((1 : Matrix (Fin 4) (Fin 4) ℝ) *ᵥ (basis⁻¹ *ᵥ center)) i⌋ = 0 := by
        rw [Matrix.one_mulVec, Int.floor_eq_zero_iff, ← hcast]
        exact hfrac ⟨(i : ℕ), hi⟩
      rw [hfl]
      simp
    · rfl
  unfold symMateTransform
  rw [hadj, Matrix.mul_one, Matrix.mul_nonsing_inv _ hb]

/-- C6 witness: the identity basis (unit determinant) with center
(0,0,0,1), whose fractional coordinates (0,0,0) lie in [0,1). -/
theorem symMateTransform_identity_witness :
    symMateTransform (1 : Matrix (Fin 4) (Fin 4) ℝ) ![0, 0, 0, 1] 1 0 = 1 :=
  symMateTransform_identity 1 ![0, 0, 0, 1] (by simp)
    (by
      intro i
      fin_cases i <;>
        simp [Matrix.one_mulVec, castSucc0, castSucc1, castSucc2,
          Set.mem_Ico])

/-- C7: conjugating the emitted model-space transform back by the basis
reproduces the adjusted fractional operator exactly — step 4 of the
placement is a true similarity transform. -/
theorem symMateTransform_roundtrip (basis : Matrix (Fin 4) (Fin 4) ℝ)
    (center : Fin 4 → ℝ) (mat : Matrix (Fin 4) (Fin 4) ℝ)
    (offset : Fin 3 → ℝ) (hb : IsUnit basis.det) :
    basis⁻¹ * symMateTransform basis center mat offset * basis =
      adjustedOperator basis center mat offset := by
  unfold symMateTransform
  rw [← mul_assoc, ← mul_assoc, Matrix.nonsing_inv_mul _ hb, one_mul,
    mul_assoc, Matrix.nonsing_inv_mul _ hb, mul_one]

/-- C7 witness: the round-trip at the identity basis, identity operator,
center (0,0,0,1) and offset 0. -/
theorem symMateTransform_roundtrip_witness :
    (1 : Matrix (Fin 4) (Fin 4) ℝ)⁻¹ *
        symMateTransform 1 ![0, 0, 0, 1] 1 0 * 1 =
      adjustedOperator 1 ![0, 0, 0, 1] 1 0 :=
  symMateTransform_roundtrip 1 ![0, 0, 0, 1] 1 0 (by simp)

/-- C8: an empty symmetry-operator list makes `symexpcell` produce an
empty sequence of placed copies (so no host object is created), and the
routine returns normally — this is not an error. -/
theorem symexpcell_empty_operators (pfx : String)
    (basis : Matrix (Fin 4) (Fin 4) ℝ) (center : Fin 4 → ℝ)
    (offset : Fin 3 → ℝ) :
    symexpcell pfx basis center offset [] = [] := by
  simp [symexpcell]

/-- The last row of every `cellbasis` matrix is the homogeneous row
(0, 0, 0, 1). -/
lemma cellbasis_last_row (angles edges : Fin 3 → ℝ) (j : Fin 4) :
    cellbasis angles edges 3 j = (1 : Matrix (Fin 4) (Fin 4) ℝ) 3 j := by
  fin_cases j <;>
    simp [cellbasis, cellbasis0, edgesExt, Matrix.one_apply,
      Matrix.vecHead, Matrix.vecTail]

/-- If an invertible matrix has homogeneous last row (0, 0, 0, 1), so
does its inverse. -/
lemma inv_last_row (B : Matrix (Fin 4) (Fin 4) ℝ) (hb : IsUnit B.det)
    (hrow : ∀ j, B 3 j = (1 : Matrix (Fin 4) (Fin 4) ℝ) 3 j) (j : Fin 4) :
    B⁻¹ 3 j = (1 : Matrix (Fin 4) (Fin 4) ℝ) 3 j := by
  have h2 : (B * B⁻¹) 3 j = (1 : Matrix (Fin 4) (Fin 4) ℝ) 3 j := by
    rw [Matrix.mul_nonsing_inv _ hb]
  rw [Matrix.mul_apply, Fin.sum_univ_four, hrow 0, hrow 1, hrow 2, hrow 3] at h2
  simpa [Matrix.one_apply] using h2

/-- The fractional center has homogeneous coordinate 1 when the basis
comes from `cellbasis` and the model-space center ends in 1. -/
lemma centerCell_last (angles edges : Fin 3 → ℝ) (center : Fin 4 → ℝ)
    (hb : IsUnit (cellbasis angles edges).det) (hc : center 3 = 1) :
    ((cellbasis angles edges)⁻¹ *ᵥ center) 3 = 1 := by
  have hrow := inv_last_row (cellbasis angles edges) hb
    (cellbasis_last_row angles edges)
  simp only [Matrix.mulVec, Matrix.dotProduct]
  rw [Fin.sum_univ_four, hrow 0, hrow 1, hrow 2, hrow 3]
  simp [Matrix.one_apply, hc]

/-- Entry (i, 3) of the adjusted operator for i < 3: the translation got
`- shift + offset`. -/
lemma adjustedOperator_apply_last (basis : Matrix (Fin 4) (Fin 4) ℝ)
    (center : Fin 4 → ℝ) (mat : Matrix (Fin 4) (Fin 4) ℝ)
    (offset : Fin 3 → ℝ) (i : Fin 4) (hi : (i : ℕ) < 3) :
    adjustedOperator basis center mat offset i 3 =
      mat i 3 - ((⌊(mat *ᵥ (basis⁻¹ *ᵥ center)) i⌋ : ℤ) : ℝ) +
        offset ⟨(i : ℕ), hi⟩ := by
  unfold adjustedOperator
  simp only [Matrix.of_apply]
  rw [dif_pos ⟨by trivial, hi⟩]

/-- Every other entry of the adjusted operator is the operator's own. -/
lemma adjustedOperator_apply_ne (basis : Matrix (Fin 4) (Fin 4) ℝ)
    (center : Fin 4 → ℝ) (mat : Matrix (Fin 4) (Fin 4) ℝ)
    (offset : Fin 3 → ℝ) (i j : Fin 4) (hj : ¬(j = 3 ∧ (i : ℕ) < 3)) :
    adjustedOperator basis center mat offset i j = mat i j := by
  unfold adjustedOperator
  simp only [Matrix.of_apply]
  rw [dif_neg hj]

/-- C10: after the floor-based shift subtraction and offset addition,
the adjusted operator sends the fractional center to a point whose i-th
fractional component lies in [offset i, offset i + 1): every placed
copy's bounding-box center lands inside its target replica cell. -/
theorem adjustedOperator_center_in_cell (angles edges : Fin 3 → ℝ)
    (center : Fin 4 → ℝ) (mat : Matrix (Fin 4) (Fin 4) ℝ) (off : Fin 3 → ℤ)
    (hb : IsUnit (cellbasis angles edges).det) (hc : center 3 = 1)
    (i : Fin 3) :
    ((off i : ℝ) ≤ (adjustedOperator (cellbasis angles edges) center mat
        (fun k => (off k : ℝ)) *ᵥ ((cellbasis angles edges)⁻¹ *ᵥ center))
        i.castSucc) ∧
    ((adjustedOperator (cellbasis angles edges) center mat
        (fun k => (off k : ℝ)) *ᵥ ((cellbasis angles edges)⁻¹ *ᵥ center))
        i.castSucc < (off i : ℝ) + 1) := by
  set x : Fin 4 → ℝ := (cellbasis angles edges)⁻¹ *ᵥ center with hxdef
  have hx3 : x 3 = 1 := centerCell_last angles edges center hb hc
  have hlt : ((i.castSucc : Fin 4) : ℕ) < 3 := i.isLt
  have hmk : (⟨((i.castSucc : Fin 4) : ℕ), hlt⟩ : Fin 3) = i := by
    apply Fin.ext; rfl
  have hS : (mat *ᵥ x) i.castSucc = ∑ j : Fin 4, mat i.castSucc j * x j := by
    simp [Matrix.mulVec, Matrix.dotProduct]
  have key : (adjustedOperator (cellbasis angles edges) center mat
      (fun k => (off k : ℝ)) *ᵥ x) i.castSucc =
      Int.fract ((mat *ᵥ x) i.castSucc) + (off i : ℝ) := by
    have hL : (adjustedOperator (cellbasis angles edges) center mat
        (fun k => (off k : ℝ)) *ᵥ x) i.castSucc =
        ∑ j : Fin 4, adjustedOperator (cellbasis angles edges) center mat
          (fun k => (off k : ℝ)) i.castSucc j * x j := by
      simp [Matrix.mulVec, Matrix.dotProduct]
    rw [hL, Fin.sum_univ_four,
      adjustedOperator_apply_ne _ _ _ _ _ 0 (by simp),
      adjustedOperator_apply_ne _ _ _ _ _ 1 (by simp),
      adjustedOperator_apply_ne _ _ _ _ _ 2 (by simp),
      adjustedOperator_apply_last _ _ _ _ _ hlt, hmk, ← hxdef,
      hS, ← Int.self_sub_floor, Fin.sum_univ_four, hx3]
    ring
  rw [key]
  constructor
  · have := Int.fract_nonneg ((mat *ᵥ x) i.castSucc)
    linarith
  · have := Int.fract_lt_one ((mat *ᵥ x) i.castSucc)
    linarith

lemma cellbasis_102030 :
    cellbasis ![90, 90, 90] ![10, 20, 30] =
      Matrix.diagonal ![10, 20, 30, 1] := by
  rw [cellbasis_allninety]
  norm_num

lemma det_cellbasis_102030 : IsUnit (cellbasis ![90, 90, 90] ![10, 20, 30]).det := by
  apply isUnit_iff_ne_zero.mpr
  rw [cellbasis_102030, Matrix.det_diagonal]
  norm_num [Fin.prod_univ_four]

lemma inv_cellbasis_102030 :
    (cellbasis ![90, 90, 90] ![10, 20, 30])⁻¹ =
      Matrix.diagonal ![(10 : ℝ)⁻¹, 20⁻¹, 30⁻¹, 1] := by
  apply Matrix.inv_eq_right_inv
  rw [cellbasis_102030, Matrix.diagonal_mul_diagonal]
  have hone : (fun i => (![10, 20, 30, 1] : Fin 4 → ℝ) i * ![(10 : ℝ)⁻¹, 20⁻¹, 30⁻¹, 1] i) =
      fun _ => (1 : ℝ) := by
    funext i
    fin_cases i <;> norm_num
  rw [hone, Matrix.diagonal_one]

/-- C10 witness: the invariant at the orthorhombic (10, 20, 30) cell,
center (5, 10, 15, 1), the identity operator, offset (0, 0, 0), and
component 0. -/
theorem adjustedOperator_center_in_cell_witness :
    ((((0 : Fin 3 → ℤ) 0 : ℤ) : ℝ) ≤
      (adjustedOperator (cellbasis ![90, 90, 90] ![10, 20, 30]) ![5, 10, 15, 1] 1
        (fun k => (((0 : Fin 3 → ℤ) k : ℤ) : ℝ)) *ᵥ
        ((cellbasis ![90, 90, 90] ![10, 20, 30])⁻¹ *ᵥ ![5, 10, 15, 1]))
        (Fin.castSucc 0)) ∧
    ((adjustedOperator (cellbasis ![90, 90, 90] ![10, 20, 30]) ![5, 10, 15, 1] 1
        (fun k => (((0 : Fin 3 → ℤ) k : ℤ) : ℝ)) *ᵥ
        ((cellbasis ![90, 90, 90] ![10, 20, 30])⁻¹ *ᵥ ![5, 10, 15, 1]))
        (Fin.castSucc 0) < (((0 : Fin 3 → ℤ) 0 : ℤ) : ℝ) + 1) :=
  adjustedOperator_center_in_cell ![90, 90, 90] ![10, 20, 30] ![5, 10, 15, 1]
    1 0 det_cellbasis_102030 rfl 0

/-- A pure Cartesian translation by `v`, as a homogeneous 4x4 matrix. -/
def translationMatrix (v : Fin 3 → ℝ) : Matrix (Fin 4) (Fin 4) ℝ :=
  !![1, 0, 0, v 0; 0, 1, 0, v 1; 0, 0, 1, v 2; 0, 0, 0, 1]

lemma finmk_zero (h : (0 : ℕ) < 3) : (⟨0, h⟩ : Fin 3) = 0 := rfl

lemma finmk_one (h : (1 : ℕ) < 3) : (⟨1, h⟩ : Fin 3) = 1 := rfl

lemma finmk_two (h : (2 : ℕ) < 3) : (⟨2, h⟩ : Fin 3) = 2 := rfl

lemma fin4_zero_ne_three : ¬(0 : Fin 4) = 3 := by decide

lemma fin4_one_ne_three : ¬(1 : Fin 4) = 3 := by decide

lemma fin4_two_ne_three : ¬(2 : Fin 4) = 3 := by decide

/-- On the orthorhombic (10, 20, 30) cell with the identity operator and
a center inside the origin cell, the adjusted operator is a pure
fractional translation by the offset. -/
lemma adjustedOperator_identity_102030 (center : Fin 4 → ℝ)
    (h0 : 0 ≤ center 0 ∧ center 0 < 10)
    (h1 : 0 ≤ center 1 ∧ center 1 < 20)
    (h2 : 0 ≤ center 2 ∧ center 2 < 30) (off : Fin 3 → ℝ) :
    adjustedOperator (cellbasis ![90, 90, 90] ![10, 20, 30]) center 1 off =
      translationMatrix ![off 0, off 1, off 2] := by
  have hc0 : ((cellbasis ![90, 90, 90] ![10, 20, 30])⁻¹ *ᵥ center) 0 =
      (10 : ℝ)⁻¹ * center 0 := by
    rw [inv_cellbasis_102030, Matrix.mulVec_diagonal]
    norm_num
  have hc1 : ((cellbasis ![90, 90, 90] ![10, 20, 30])⁻¹ *ᵥ center) 1 =
      (20 : ℝ)⁻¹ * center 1 := by
    rw [inv_cellbasis_102030, Matrix.mulVec_diagonal]
    norm_num
  have hc2 : ((cellbasis ![90, 90, 90] ![10, 20, 30])⁻¹ *ᵥ center) 2 =
      (30 : ℝ)⁻¹ * center 2 := by
    rw [inv_cellbasis_102030, Matrix.mulVec_diagonal]
    norm_num
  have hf0 : ⌊(10 : ℝ)⁻¹ * center 0⌋ = 0 := by
    rw [Int.floor_eq_zero_iff, Set.mem_Ico]
    exact ⟨mul_nonneg (by norm_num) h0.1, by linarith [h0.2]⟩
  have hf1 : ⌊(20 : ℝ)⁻¹ * center 1⌋ = 0 := by
    rw [Int.floor_eq_zero_iff, Set.mem_Ico]
    exact ⟨mul_nonneg (by norm_num) h1.1, by linarith [h1.2]⟩
  have hf2 : ⌊(30 : ℝ)⁻¹ * center 2⌋ = 0 := by
    rw [Int.floor_eq_zero_iff, Set.mem_Ico]
    exact ⟨mul_nonneg (by norm_num) h2.1, by linarith [h2.2]⟩
  ext i j
  by_cases h : j = 3 ∧ (i : ℕ) < 3
  · obtain ⟨hj, hi⟩ := h
    subst hj
    rw [adjustedOperator_apply_last _ _ _ _ _ hi, Matrix.one_mulVec]
    have hi3 : i = 0 ∨ i = 1 ∨ i = 2 := by
      obtain ⟨iv, hv⟩ := i
      have hi' : iv < 3 := hi
      interval_cases iv
      · exact Or.inl rfl
      · exact Or.inr (Or.inl rfl)
      · exact Or.inr (Or.inr rfl)
    rcases hi3 with rfl | rfl | rfl
    · rw [hc0, hf0]
      norm_num [translationMatrix, finmk_zero, fin4_zero_ne_three,
        Matrix.one_apply, Matrix.vecHead, Matrix.vecTail]
    · rw [hc1, hf1]
      norm_num [translationMatrix, finmk_one, fin4_one_ne_three,
        Matrix.one_apply, Matrix.vecHead, Matrix.vecTail]
    · rw [hc2, hf2]
      norm_num [translationMatrix, finmk_two, fin4_two_ne_three,
        Matrix.one_apply, Matrix.vecHead, Matrix.vecTail]
  · rw [adjustedOperator_apply_ne _ _ _ _ _ _ h]
    push_neg at h
    by_cases hj : j = 3
    · subst hj
      have hi : i = 3 := by
        apply Fin.ext
        have h1 := h rfl
        have h2 := i.isLt
        omega
      subst hi
      norm_num [translationMatrix, Matrix.one_apply, Matrix.vecHead,
        Matrix.vecTail]
    · fin_cases i <;> fin_cases j <;>
        first
        | (exact absurd rfl hj)
        | (norm_num [translationMatrix, Matrix.one_apply, Matrix.vecHead,
            Matrix.vecTail] <;> decide)

/-- On the orthorhombic (10, 20, 30) cell with the identity operator,
the emitted model-space transform is the pure Cartesian translation by
the offset scaled by the edges. -/
lemma symMateTransform_translation_102030 (center : Fin 4 → ℝ)
    (h0 : 0 ≤ center 0 ∧ center 0 < 10)
    (h1 : 0 ≤ center 1 ∧ center 1 < 20)
    (h2 : 0 ≤ center 2 ∧ center 2 < 30) (off : Fin 3 → ℝ) :
    symMateTransform (cellbasis ![90, 90, 90] ![10, 20, 30]) center 1 off =
      translationMatrix ![10 * off 0, 20 * off 1, 30 * off 2] := by
  unfold symMateTransform
  rw [adjustedOperator_identity_102030 center h0 h1 h2 off]
  have hTB : translationMatrix ![10 * off 0, 20 * off 1, 30 * off 2] *
      cellbasis ![90, 90, 90] ![10, 20, 30] =
      cellbasis ![90, 90, 90] ![10, 20, 30] *
        translationMatrix ![off 0, off 1, off 2] := by
    rw [cellbasis_102030]
    ext i j
    fin_cases i <;> fin_cases j <;>
      simp [Matrix.mul_apply, Fin.sum_univ_four, translationMatrix,
        Matrix.diagonal, Matrix.vecHead, Matrix.vecTail]
  calc cellbasis ![90, 90, 90] ![10, 20, 30] *
        translationMatrix ![off 0, off 1, off 2] *
        (cellbasis ![90, 90, 90] ![10, 20, 30])⁻¹
      = translationMatrix ![10 * off 0, 20 * off 1, 30 * off 2] *
          cellbasis ![90, 90, 90] ![10, 20, 30] *
          (cellbasis ![90, 90, 90] ![10, 20, 30])⁻¹ := by
        rw [hTB]
    _ = translationMatrix ![10 * off 0, 20 * off 1, 30 * off 2] :=
        Matrix.mul_nonsing_inv_cancel_right (cellbasis ![90, 90, 90] ![10, 20, 30])
          (translationMatrix ![10 * off 0, 20 * off 1, 30 * off 2])
          det_cellbasis_102030

/-- `basis[0:3, 0:3]`: the upper-left 3x3 block. -/
def basis3 (basis : Matrix (Fin 4) (Fin 4) ℝ) : Matrix (Fin 3) (Fin 3) ℝ :=
  Matrix.of fun i j => basis i.castSucc j.castSucc

/-- The wireframe vertex list of one replica (lines 81-99 of
`supercell.py`): the replica is shifted by `basis[0:3,0:3] * t`; for each
axis direction `i` and each of the four corner combinations `vj` of the
other two axes, the segment endpoints `shift + vj` and
`shift + vj + vi` are appended. -/
def cellEdgeEndpoints (basis : Matrix (Fin 4) (Fin 4) ℝ) (t : Fin 3 → ℝ) :
    List (Fin 3 → ℝ) :=
  let shift := basis3 basis *ᵥ t
  (List.finRange 3).flatMap fun i =>
    let vi : Fin 3 → ℝ := fun r => basis3 basis r i
    let vj : Fin 4 → (Fin 3 → ℝ) :=
      ![fun _ => 0,
        fun r => basis3 basis r (i + 1),
        fun r => basis3 basis r (i + 2),
        fun r => basis3 basis r (i + 1) + basis3 basis r (i + 2)]
    (List.finRange 4).flatMap fun j =>
      [shift + vj j, shift + vj j + vi]

/-- Each replica's wireframe has 24 endpoints (12 segments). -/
lemma cellEdgeEndpoints_length (basis : Matrix (Fin 4) (Fin 4) ℝ)
    (t : Fin 3 → ℝ) : (cellEdgeEndpoints basis t).length = 24 := rfl

/-- One replica drawn by `supercell`: its lattice offset, its wireframe
vertices, and the symmetry mates created in it. -/
structure Replica where
  offset : ℕ × ℕ × ℕ
  endpoints : List (Fin 3 → ℝ)
  copies : List PlacedCopy

/-- The main loop of `supercell` with `withmates = 1` (lines 68-105):
for each enumerated cell, the wireframe of that replica, and the
`symexpcell` calls.  The `if withmates:` block (lines 99-100) is
indented inside the `for i in range(3)` axis loop, so `symexpcell` is
invoked once per axis iteration — three identical calls per replica,
each with prefix `"m%d%d%d_"` and the cell offset; their emitted copies
are concatenated in issue order. -/
def supercell (na nb nc : ℕ) (basis : Matrix (Fin 4) (Fin 4) ℝ)
    (center : Fin 4 → ℝ) (matrices : List (Matrix (Fin 4) (Fin 4) ℝ)) :
    List Replica :=
  (enumerateCells na nb nc).map fun t =>
    { offset := t
      endpoints := cellEdgeEndpoints basis ![(t.1 : ℝ), (t.2.1 : ℝ), (t.2.2 : ℝ)]
      copies := (List.finRange 3).flatMap fun _ =>
          symexpcell
            ("m" ++ toString t.1 ++ toString t.2.1 ++ toString t.2.2 ++ "_")
            basis center ![(t.1 : ℝ), (t.2.1 : ℝ), (t.2.2 : ℝ)] matrices }

/-- C9 (counterexample): each replica does NOT get exactly one placed
copy.  The `if withmates:` call sits inside the axis loop, so in the
(10, 20, 30) / 90° / 2x1x1 / single-identity-operator scenario each of
the two replicas gets three placed copies, not one. -/
theorem supercell_2x1x1_P1_counterexample :
    ((supercell 2 1 1 (cellbasis ![90, 90, 90] ![10, 20, 30]) ![5, 10, 15, 1]
        [1]).map fun r => r.copies.length) ≠ [1, 1] := by
  have h : ((supercell 2 1 1 (cellbasis ![90, 90, 90] ![10, 20, 30])
      ![5, 10, 15, 1] [1]).map fun r => r.copies.length) = [3, 3] := rfl
  rw [h]
  simp

/-- C9 (amended): edges (10, 20, 30), right angles, a 2x1x1 supercell
and the single identity operator (space group P1): two replicas are
produced, in order (0,0,0) then (1,0,0); each has a 24-endpoint
wireframe; and each replica gets three identical placed copies (the
`symexpcell` call is issued once per axis-loop iteration), every one a
pure Cartesian translation by the replica's origin offset — (0,0,0) and
(10,0,0) respectively — named `m000_1` resp. `m100_1` (so the host holds
one object per replica, recreated three times) and colored with
index 2. -/
theorem supercell_2x1x1_P1 (center : Fin 4 → ℝ)
    (h0 : 0 ≤ center 0 ∧ center 0 < 10)
    (h1 : 0 ≤ center 1 ∧ center 1 < 20)
    (h2 : 0 ≤ center 2 ∧ center 2 < 30) :
    ((supercell 2 1 1 (cellbasis ![90, 90, 90] ![10, 20, 30]) center
        [1]).map Replica.offset = [(0, 0, 0), (1, 0, 0)]) ∧
    (∀ r ∈ supercell 2 1 1 (cellbasis ![90, 90, 90] ![10, 20, 30]) center [1],
        r.endpoints.length = 24) ∧
    ((supercell 2 1 1 (cellbasis ![90, 90, 90] ![10, 20, 30]) center
        [1]).map Replica.copies =
      [List.replicate 3 ⟨"m000_1", translationMatrix ![0, 0, 0], 2⟩,
       List.replicate 3 ⟨"m100_1", translationMatrix ![10, 0, 0], 2⟩]) := by
  refine ⟨rfl, ?_, ?_⟩
  · intro r hr
    simp only [supercell] at hr
    obtain ⟨t, -, rfl⟩ := List.mem_map.mp hr
    exact cellEdgeEndpoints_length _ _
  · have hT0 := symMateTransform_translation_102030 center h0 h1 h2
      ![((0 : ℕ) : ℝ), ((0 : ℕ) : ℝ), ((0 : ℕ) : ℝ)]
    have hT1 := symMateTransform_translation_102030 center h0 h1 h2
      ![((1 : ℕ) : ℝ), ((0 : ℕ) : ℝ), ((0 : ℕ) : ℝ)]
    have hstep : (supercell 2 1 1 (cellbasis ![90, 90, 90] ![10, 20, 30])
        center [1]).map Replica.copies =
        [List.replicate 3
          ⟨"m000_1", symMateTransform (cellbasis ![90, 90, 90] ![10, 20, 30])
            center 1 ![((0 : ℕ) : ℝ), ((0 : ℕ) : ℝ), ((0 : ℕ) : ℝ)], 2⟩,
         List.replicate 3
          ⟨"m100_1", symMateTransform (cellbasis ![90, 90, 90] ![10, 20, 30])
            center 1 ![((1 : ℕ) : ℝ), ((0 : ℕ) : ℝ), ((0 : ℕ) : ℝ)], 2⟩] := rfl
    rw [hstep, hT0, hT1]
    norm_num

/-- C9 witness: the amended scenario at the concrete center
(5, 10, 15, 1), which lies inside the origin cell. -/
theorem supercell_2x1x1_P1_witness :
    (supercell 2 1 1 (cellbasis ![90, 90, 90] ![10, 20, 30]) ![5, 10, 15, 1]
        [1]).map Replica.copies =
      [List.replicate 3 ⟨"m000_1", translationMatrix ![0, 0, 0], 2⟩,
       List.replicate 3 ⟨"m100_1", translationMatrix ![10, 0, 0], 2⟩] :=
  (supercell_2x1x1_P1 ![5, 10, 15, 1]
    ⟨by norm_num, by norm_num⟩ ⟨by norm_num, by norm_num⟩
    ⟨by norm_num, by norm_num⟩).2.2

end
